import Mathlib

/-!
Verification development for the animated chessboard component in
`src/ground.rs`.  The position-transition animation engine (`Pieces`,
`Figurine`) and the pointer interaction machine (`BoardState`,
`selection_mouse_down`, `drag_mouse_*`, `Ground::update`) are embedded
shallowly:

* `shakmaty::Square` becomes `Fin 64` (a1 = 0, b1 = 1, ..., h8 = 63, file =
  index % 8, rank = index / 8, exactly shakmaty's encoding);
* `shakmaty::Board` becomes `Square → Option Piece`; bitboard iteration
  (ascending square order) becomes iteration over `List.finRange 64`;
* `f64` coordinates and eased quantities become `ℚ` (the source arithmetic
  on them is plain field arithmetic);
* `SteadyTime` becomes an integer number of milliseconds, since
  `Figurine::elapsed` reads `(now - self.time).num_milliseconds() as f64 /
  1000.0`;
* functions that read `SteadyTime::now()` internally take `now` as an
  explicit argument;
* `relm` stream emissions become explicit `Option` results: each handler
  returns the updated state together with the `UserMove` payload it emits,
  if any.

Rendering (cairo calls, dirty rectangles, piece artwork) is out of scope of
the claims and is not embedded.
-/

/-- `shakmaty::Color`. -/
inductive Color where
  | white
  | black
deriving DecidableEq

/-- `shakmaty::Role`. -/
inductive Role where
  | pawn
  | knight
  | bishop
  | rook
  | queen
  | king
deriving DecidableEq

/-- `shakmaty::Piece`: a (color, role) pair. -/
structure Piece where
  color : Color
  role : Role
deriving DecidableEq

/-- `shakmaty::Square`: squares are indexed 0..63, a1 = 0, h8 = 63. -/
abbrev Square : Type := Fin 64

/-- `Square::file()`. -/
def sqFile (s : Square) : ℕ := s.val % 8

/-- `Square::rank()`. -/
def sqRank (s : Square) : ℕ := s.val / 8

/-- `Square::distance`: the Chebyshev distance
`max(|Δfile|, |Δrank|)` used by the diff matcher as its tie metric. -/
def sqDistance (a b : Square) : ℕ :=
  max ((sqFile a : ℤ) - sqFile b).natAbs ((sqRank a : ℤ) - sqRank b).natAbs

/-- `shakmaty::Board`, reduced to its occupancy map: `piece_at`. -/
def Board : Type := Square → Option Piece

/-- Modelled from the spec: `util::square_to_inverted` lives in `util.rs`,
which is not under `src/`.  Per spec §4.4 it is the square-to-point map of
the normalized 8×8 drawing space; its value is pinned by the inline
occurrences of the same formula in `ground.rs` (`Pieces::new_from_board`
and the `added` push in `Pieces::set_board` both place a resting piece at
`(0.5 + file, 7.5 - rank)`). -/
def square_to_inverted (s : Square) : ℚ × ℚ :=
  (1/2 + (sqFile s : ℚ), 15/2 - (sqRank s : ℚ))

/-- `ANIMATE_DURATION`: 0.2 seconds. -/
def ANIMATE_DURATION : ℚ := 1/5

/-- `ease_in_out_cubic` from `ground.rs` (the Rust parameter names are
`start`, `end`, `elapsed`, `duration`; `end` is a Lean keyword, so it is
called `stop` here). -/
def ease_in_out_cubic (start stop elapsed duration : ℚ) : ℚ :=
  let t := elapsed / duration
  let ease :=
    if 1 ≤ t then 1
    else if 1/2 ≤ t then (t - 1) * (2 * t - 2) * (2 * t - 2) + 1
    else if 0 ≤ t then 4 * t * t * t
    else 0
  start + (stop - start) * ease

/-- `Figurine`: one animated piece instance.  `pos` is the stored animation
start position (board space), `time` the animation start timestamp in
milliseconds. -/
structure Figurine where
  square : Square
  piece : Piece
  pos : ℚ × ℚ
  time : ℤ
  fading : Bool
  replaced : Bool
  dragging : Bool
deriving DecidableEq

/-- `Figurine::elapsed`: seconds since the animation start. -/
def Figurine.elapsed (f : Figurine) (now : ℤ) : ℚ :=
  ((now - f.time : ℤ) : ℚ) / 1000

/-- `Figurine::pos(&self, now)`: the current eased draw position (named
`posAt` because `pos` is the stored field). -/
def Figurine.posAt (f : Figurine) (now : ℤ) : ℚ × ℚ :=
  let stop := square_to_inverted f.square
  if f.dragging then stop
  else if f.fading then f.pos
  else (ease_in_out_cubic f.pos.1 stop.1 (f.elapsed now) ANIMATE_DURATION,
        ease_in_out_cubic f.pos.2 stop.2 (f.elapsed now) ANIMATE_DURATION)

/-- `Figurine::alpha_easing`. -/
def Figurine.alpha_easing (f : Figurine) (base : ℚ) (now : ℤ) : ℚ :=
  if f.fading then base * ease_in_out_cubic 1 0 (f.elapsed now) ANIMATE_DURATION
  else base

/-- `Figurine::drag_alpha`. -/
def Figurine.drag_alpha (f : Figurine) (now : ℤ) : ℚ :=
  let base : ℚ := if f.fading && f.replaced then 1/2 else 1
  f.alpha_easing base now

/-- `Figurine::alpha` (0.2 is exactly 1/5). -/
def Figurine.alpha (f : Figurine) (now : ℤ) : ℚ :=
  if f.dragging then (1/5 : ℚ) * f.alpha_easing 1 now
  else f.drag_alpha now

/-- `Figurine::is_animating`. -/
def Figurine.is_animating (f : Figurine) (now : ℤ) : Bool :=
  !f.dragging && decide (f.elapsed now ≤ ANIMATE_DURATION) &&
    (f.fading || decide (f.pos ≠ square_to_inverted f.square))

/-- `Pieces`: the piece layer, owning the previous board snapshot and the
figurine collection. -/
structure Pieces where
  board : Board
  figurines : List Figurine

/-- The figurine a freshly added piece gets in `Pieces::set_board` (and,
with the creation time, in `Pieces::new_from_board`): at rest on its
square, fully opaque. -/
def newFigurine (sq : Square) (p : Piece) (now : ℤ) : Figurine :=
  { square := sq
    piece := p
    pos := (1/2 + (sqFile sq : ℚ), 15/2 - (sqRank sq : ℚ))
    time := now
    fading := false
    replaced := false
    dragging := false }

/-- `Pieces::new_from_board`: one resting figurine per occupied square;
`board.pieces()` iterates the occupied bitboard in ascending square
order. -/
def Pieces.new_from_board (b : Board) (now : ℤ) : Pieces :=
  { board := b
    figurines := (List.finRange 64).filterMap fun sq =>
      (b sq).map fun p => newFigurine sq p now }

/-- `Iterator::min_by_key` over an ascending square list: the first
minimizing element is returned (Rust's documented tie rule). -/
def minByKey (key : Square → ℕ) : List Square → Option Square
  | [] => none
  | x :: xs =>
    match minByKey key xs with
    | none => some x
    | some y => if key x ≤ key y then some x else some y

/-- The `added.retain(...)` matching loop of `Pieces::set_board`: processes
the `added` entries in order, threading the `removed` square set; returns
(matched (orig, dest) pairs, unmatched removals, unmatched additions), each
in the source's processing order.  `old` is `self.board`, the board before
the update, used by `self.board.by_piece(piece).contains(*sq)`. -/
def matchAdds (old : Board) :
    List (Square × Piece) → List Square →
    List (Square × Square) × List Square × List (Square × Piece)
  | [], removed => ([], removed, [])
  | (sq, p) :: rest, removed =>
    match minByKey (fun r => sqDistance r sq)
        (removed.filter fun r => decide (old r = some p)) with
    | some best =>
      let r := matchAdds old rest (removed.erase best)
      ((best, sq) :: r.1, r.2.1, r.2.2)
    | none =>
      let r := matchAdds old rest removed
      (r.1, r.2.1, (sq, p) :: r.2.2)

/-- The iteration domain of the diff loop of `Pieces::set_board`:
`self.board.occupied() | board.occupied()`, in ascending square order. -/
def diffSquares (old new : Board) : List Square :=
  (List.finRange 64).filter fun s => (old s).isSome || (new s).isSome

/-- The `removed` bitboard built by the diff loop of `Pieces::set_board`:
squares whose occupant changed and that were occupied before. -/
def removedSquares (old new : Board) : List Square :=
  (diffSquares old new).filter fun s =>
    decide (old s ≠ new s) && (old s).isSome

/-- The `added` vector built by the diff loop of `Pieces::set_board`:
squares whose occupant changed and that are occupied now, with the new
piece, in ascending square order. -/
def addedPieces (old new : Board) : List (Square × Piece) :=
  (diffSquares old new).filterMap fun s =>
    if old s ≠ new s then (new s).map (fun p => (s, p)) else none

/-- The diff part of `Pieces::set_board`: the removed/added loop followed
by the matching loop.  Returns (matched moves, pure removals, pure
additions). -/
def boardDiff (old new : Board) :
    List (Square × Square) × List Square × List (Square × Piece) :=
  matchAdds old (addedPieces old new) (removedSquares old new)

/-- The "clean and freeze previous animation" in-place loop of
`Pieces::set_board`, acting on one figurine. -/
def freezeFig (now : ℤ) (f : Figurine) : Figurine :=
  if f.fading then f else { f with pos := f.posAt now, time := now }

/-- Prune fully faded figurines (`retain(|f| f.alpha(now) > 0.0001)`) and
freeze the survivors' animations, as at the top of `Pieces::set_board`. -/
def prepFigs (figs : List Figurine) (now : ℤ) : List Figurine :=
  (figs.filter fun f => decide ((1 : ℚ)/10000 < f.alpha now)).map (freezeFig now)

/-- One step of the fade loop of `Pieces::set_board`: every not-yet-fading
figurine on the removed square `sq` is marked fading, with `replaced`
recording whether the new board still occupies the square. -/
def fadeOne (b : Board) (now : ℤ) (sq : Square) (figs : List Figurine) :
    List Figurine :=
  figs.map fun f =>
    if ¬f.fading ∧ f.square = sq
    then { f with fading := true, replaced := (b sq).isSome, time := now }
    else f

/-- The `for square in removed` fade loop of `Pieces::set_board`. -/
def applyFades (b : Board) (now : ℤ) (removed : List Square)
    (figs : List Figurine) : List Figurine :=
  removed.foldl (fun acc sq => fadeOne b now sq acc) figs

/-- One step of the move-match loop of `Pieces::set_board`:
`figurines.iter_mut().find(|f| !f.fading && f.square == orig)` relocates the
first matching figurine to `dest` and restarts its clock. -/
def moveFirst (now : ℤ) (orig dest : Square) : List Figurine → List Figurine
  | [] => []
  | f :: rest =>
    if ¬f.fading ∧ f.square = orig
    then { f with square := dest, time := now } :: rest
    else f :: moveFirst now orig dest rest

/-- The `for (orig, dest) in matched` loop of `Pieces::set_board`. -/
def applyMoves (now : ℤ) (matched : List (Square × Square))
    (figs : List Figurine) : List Figurine :=
  matched.foldl (fun acc od => moveFirst now od.1 od.2 acc) figs

/-- `Pieces::set_board`: prune and freeze, diff, fade unmatched removals,
relocate matched moves, push unmatched additions, and store the new
board.  `now` stands for the `SteadyTime::now()` read at the top. -/
def Pieces.set_board (pcs : Pieces) (b : Board) (now : ℤ) : Pieces :=
  { board := b
    figurines :=
      applyMoves now (boardDiff pcs.board b).1
          (applyFades b now (boardDiff pcs.board b).2.1
            (prepFigs pcs.figurines now)) ++
        (boardDiff pcs.board b).2.2.map fun sp => newFigurine sp.1 sp.2 now }

/-- `Pieces::figurine_at`: first non-fading figurine on a square. -/
def Pieces.figurine_at (pcs : Pieces) (sq : Square) : Option Figurine :=
  pcs.figurines.find? fun f => !f.fading && decide (f.square = sq)

/-- `Pieces::dragging`: the first figurine with the dragging flag. -/
def Pieces.dragging_fig (pcs : Pieces) : Option Figurine :=
  pcs.figurines.find? fun f => f.dragging

/-- `Pieces::is_animating`. -/
def Pieces.is_animating (pcs : Pieces) (now : ℤ) : Bool :=
  pcs.figurines.any fun f => f.is_animating now

/-- A legal move as the interaction machine reads it: `shakmaty::Move`
through `from()`, `to()` and `promotion()` (`from` is a Lean keyword). -/
structure LegalMove where
  fromSq : Option Square
  toSq : Square
  promotion : Option Role
deriving DecidableEq

/-- `DragStart`: the provisional drag anchor. -/
structure DragStart where
  pos : ℚ × ℚ
  square : Square
deriving DecidableEq

/-- `BoardState` (the `piece_set` SVG asset handle and the cached render
timestamp `now` are rendering-only and not embedded). -/
structure BoardState where
  pieces : Pieces
  orientation : Color
  check : Option Square
  selected : Option Square
  last_move : Option (Square × Square)
  drag_start : Option DragStart
  legals : List LegalMove

/-- `BoardState::move_targets`. -/
def BoardState.move_targets (bs : BoardState) (orig : Square) : List Square :=
  (bs.legals.filter fun m => decide (m.fromSq = some orig)).map fun m => m.toSq

/-- `BoardState::valid_move`. -/
def BoardState.valid_move (bs : BoardState) (orig dest : Square) : Bool :=
  (bs.move_targets orig).contains dest

/-- `BoardState::selection_mouse_down`.  `square` is `context.square` (the
square under the pointer, `None` off-board), `button` is
`e.get_button()`.  Returns the updated state and the emitted
`UserMove(orig, dest, None)` payload, if any. -/
def BoardState.selection_mouse_down (bs : BoardState) (square : Option Square)
    (button : ℕ) : BoardState × Option (Square × Square) :=
  let orig := bs.selected
  let bs1 := { bs with selected := none }
  if button = 1 then
    let bs2 := { bs1 with
      selected := square.filter fun sq => (bs.pieces.board sq).isSome }
    match orig, square with
    | some o, some d =>
      ({ bs2 with selected := none }, if o ≠ d then some (o, d) else none)
    | _, _ => (bs2, none)
  else (bs1, none)

/-- `drag_mouse_down`.  `pos` is the pointer position already mapped to
board space (`util::invert_pos` lives in the absent `util.rs`). -/
def BoardState.drag_mouse_down (bs : BoardState) (pos : ℚ × ℚ)
    (square : Option Square) (button : ℕ) : BoardState :=
  if button = 1 then
    match square with
    | some sq =>
      if (bs.pieces.figurine_at sq).isSome
      then { bs with drag_start := some { pos := pos, square := sq } }
      else bs
    | none => bs
  else bs

/-- The threshold part of `drag_mouse_move`: once the pointer strays at
least 0.1 from the anchor, the first non-fading figurine on the anchor
square gets `dragging = true`.  (`hypot(dx, dy) >= 0.1` is compared in
squared form, exact in `ℚ`.) -/
def startDragFirst (sq : Square) : List Figurine → List Figurine
  | [] => []
  | f :: rest =>
    if ¬f.fading ∧ f.square = sq then { f with dragging := true } :: rest
    else f :: startDragFirst sq rest

/-- The dragging-update part of `drag_mouse_move` on the figurine list:
the first dragging figurine follows the pointer directly; also reports its
square (the source re-selects it). -/
def dragMoveFigs (pos : ℚ × ℚ) (now : ℤ) :
    List Figurine → List Figurine × Option Square
  | [] => ([], none)
  | f :: rest =>
    if f.dragging then ({ f with pos := pos, time := now } :: rest, some f.square)
    else
      let r := dragMoveFigs pos now rest
      (f :: r.1, r.2)

/-- The `drag_start` half of `drag_mouse_move`: when the pointer has
strayed at least the threshold from the anchor, the anchor square's
figurine enters drag mode. -/
def BoardState.apply_drag_threshold (bs : BoardState) (pos : ℚ × ℚ) :
    BoardState :=
  match bs.drag_start with
  | some ds =>
    if (1 : ℚ)/100 ≤ (ds.pos.1 - pos.1) * (ds.pos.1 - pos.1) +
        (ds.pos.2 - pos.2) * (ds.pos.2 - pos.2) then
      { bs with pieces :=
        { bs.pieces with
          figurines := startDragFirst ds.square bs.pieces.figurines } }
    else bs
  | none => bs

/-- `drag_mouse_move` (redraw-area bookkeeping dropped): the threshold
check followed by the dragging figurine tracking the pointer. -/
def BoardState.drag_mouse_move (bs : BoardState) (pos : ℚ × ℚ) (now : ℤ) :
    BoardState :=
  match (dragMoveFigs pos now
      (bs.apply_drag_threshold pos).pieces.figurines).2 with
  | some sq =>
    { bs.apply_drag_threshold pos with
      selected := some sq
      pieces := { (bs.apply_drag_threshold pos).pieces with
        figurines := (dragMoveFigs pos now
          (bs.apply_drag_threshold pos).pieces.figurines).1 } }
  | none => bs.apply_drag_threshold pos

/-- The figurine-list part of `BoardState::drag_mouse_up`: the first
dragging figurine is snapped to the computed destination
(`context.square.unwrap_or(dragging.square)`), its drag flag cleared, and
the provisional `(orig, dest)` pair returned when the move should be
attempted (`dragging.square != dest && !dragging.fading`). -/
def dragUpFigs (square : Option Square) (now : ℤ) :
    List Figurine → List Figurine × Option (Square × Square)
  | [] => ([], none)
  | f :: rest =>
    if f.dragging then
      let dest := square.getD f.square
      let f' := { f with
        pos := square_to_inverted dest
        time := now
        dragging := false }
      (f' :: rest,
        if f.square ≠ dest ∧ ¬f.fading then some (f.square, dest) else none)
    else
      let r := dragUpFigs square now rest
      (f :: r.1, r.2)

/-- `BoardState::drag_mouse_up`: clears the drag anchor, processes the
dragging figurine, clears the selection when a move is attempted, and
emits `UserMove(orig, dest, None)` when `orig != dest`. -/
def BoardState.drag_mouse_up (bs : BoardState) (square : Option Square)
    (now : ℤ) : BoardState × Option (Square × Square) :=
  let r := dragUpFigs square now bs.pieces.figurines
  let bs1 := { bs with
    drag_start := none
    pieces := { bs.pieces with figurines := r.1 }
    selected := if r.2.isSome then none else bs.selected }
  match r.2 with
  | some (orig, dest) =>
    (bs1, if orig ≠ dest then some (orig, dest) else none)
  | none => (bs1, none)

/-- Modelled from the spec: `PromotionPending` of §3 — `promotable.rs` is
not under `src/`.  The committed origin/destination plus the hovered
candidate role. -/
structure PromotionPending where
  orig : Square
  dest : Square
  hover : Option Role
deriving DecidableEq

/-- Modelled from the spec: `Promotable::start_promoting(orig, dest)`
(called by `Ground::update`; `promotable.rs` is not under `src/`) creates
the pending promotion state for the given move. -/
def start_promoting (orig dest : Square) : PromotionPending :=
  { orig := orig, dest := dest, hover := none }

/-- Modelled from the spec: the `PromotionOverlay` pointer-down of §4.3 —
"pointer-down on a role option emits the move with that role and returns
to `Idle`; pointer-down elsewhere cancels the pending promotion without
emitting a move" (`promotable.rs` is not under `src/`).  `hovered` is the
role option under the pointer, `none` when the click is elsewhere.
Returns the new overlay state and the emitted `(orig, dest, role)`. -/
def promotable_mouse_down (p : Option PromotionPending)
    (hovered : Option Role) :
    Option PromotionPending × Option (Square × Square × Role) :=
  match p with
  | none => (none, none)
  | some pend =>
    match hovered with
    | some r => (none, some (pend.orig, pend.dest, r))
    | none => (none, none)

/-- `GroundMsg`. -/
inductive GroundMsg where
  | UserMove (orig dest : Square) (role : Option Role)
  | SetPosition (board : Board) (legals : List LegalMove)
      (last_move : Option (Square × Square)) (check : Option Square)
  | ShapesChanged

/-- The state owned by the `Ground` widget that `Ground::update` mutates
(drawing plumbing dropped; `drawable` is out of scope of the claims). -/
structure GroundState where
  board_state : BoardState
  promotable : Option PromotionPending

/-- `Ground::update`: a `UserMove(orig, dest, None)` for a valid move that
requires a promotion role opens the promotion overlay; `SetPosition`
applies the diff and stores the new legal-move set. -/
def Ground.update (g : GroundState) (msg : GroundMsg) (now : ℤ) : GroundState :=
  match msg with
  | .UserMove orig dest none =>
    if g.board_state.valid_move orig dest &&
        g.board_state.legals.any (fun m =>
          decide (m.fromSq = some orig) && decide (m.toSq = dest) &&
            m.promotion.isSome) then
      { g with promotable := some (start_promoting orig dest) }
    else g
  | .SetPosition b legals lm chk =>
    { g with board_state :=
      { g.board_state with
        pieces := g.board_state.pieces.set_board b now
        legals := legals
        last_move := lm
        check := chk } }
  | _ => g

/-- Number of non-fading figurines sitting on square `s`. -/
def cnt (s : Square) (figs : List Figurine) : ℕ :=
  figs.countP fun f => !f.fading && decide (f.square = s)

/-- 1 when the board occupies `s`, else 0. -/
def occupancy (b : Board) (s : Square) : ℕ :=
  if (b s).isSome then 1 else 0

/-- The layer/board correspondence: every square holds exactly as many
non-fading figurines as the stored board snapshot has pieces there. -/
def PiecesInv (pcs : Pieces) : Prop :=
  ∀ s : Square, cnt s pcs.figurines = occupancy pcs.board s

/-! ## General list helpers -/

theorem filter_eq_singleton {α : Type} {l : List α} {a : α} {p : α → Bool}
    (hn : l.Nodup) (ha : a ∈ l) (h : ∀ x ∈ l, p x = true ↔ x = a) :
    l.filter p = [a] := by
  induction l with
  | nil => cases ha
  | cons x xs ih =>
    rcases List.nodup_cons.mp hn with ⟨hx, hxs⟩
    by_cases hxa : x = a
    · subst hxa
      have hnil : xs.filter p = [] := by
        apply List.filter_eq_nil_iff.mpr
        intro b hb hpb
        exact hx (((h b (List.mem_cons_of_mem _ hb)).mp hpb) ▸ hb)
      simp [List.filter_cons, (h x (List.mem_cons_self _ _)).mpr rfl, hnil]
    · have ha' : a ∈ xs := by
        rcases List.mem_cons.mp ha with h' | h'
        · exact absurd h'.symm hxa
        · exact h'
      have hpx : p x = false := by
        by_contra hc
        exact hxa ((h x (List.mem_cons_self _ _)).mp (Bool.of_not_eq_false hc))
      simp [List.filter_cons, hpx,
        ih hxs ha' (fun y hy => h y (List.mem_cons_of_mem _ hy))]

theorem filterMap_eq_singleton {α β : Type} {l : List α} {a : α} {y : β}
    {f : α → Option β} (hn : l.Nodup) (ha : a ∈ l) (hfa : f a = some y)
    (h : ∀ x ∈ l, x ≠ a → f x = none) :
    l.filterMap f = [y] := by
  induction l with
  | nil => cases ha
  | cons x xs ih =>
    rcases List.nodup_cons.mp hn with ⟨hx, hxs⟩
    by_cases hxa : x = a
    · subst hxa
      have hnil : xs.filterMap f = [] := by
        apply List.filterMap_eq_nil_iff.mpr
        intro b hb
        exact h b (List.mem_cons_of_mem _ hb) (fun hba => hx (hba ▸ hb))
      simp [List.filterMap_cons, hfa, hnil]
    · have ha' : a ∈ xs := by
        rcases List.mem_cons.mp ha with h' | h'
        · exact absurd h'.symm hxa
        · exact h'
      have hfx : f x = none := h x (List.mem_cons_self _ _) hxa
      simp [List.filterMap_cons, hfx,
        ih hxs ha' (fun b hb => h b (List.mem_cons_of_mem _ hb))]

theorem filterMap_filter_comm {α β : Type} (p : α → Bool) (f : α → Option β)
    (l : List α) :
    (l.filter p).filterMap f
      = l.filterMap fun a => if p a then f a else none := by
  induction l with
  | nil => rfl
  | cons x xs ih =>
    by_cases hx : p x <;>
      simp [List.filter_cons, List.filterMap_cons, hx, ih]

/-! ## Characterizations of the diff components -/

theorem removedSquares_eq (old new : Board) :
    removedSquares old new
      = (List.finRange 64).filter fun s =>
          decide (old s ≠ new s) && (old s).isSome := by
  rw [removedSquares, diffSquares, List.filter_filter]
  apply List.filter_congr
  intro s _
  by_cases h1 : old s = new s
  · simp [h1]
  · by_cases h2 : (old s).isSome <;> simp [h1, h2]

theorem mem_removedSquares {old new : Board} {s : Square} :
    s ∈ removedSquares old new ↔ old s ≠ new s ∧ (old s).isSome := by
  rw [removedSquares_eq]
  simp [List.mem_filter, List.mem_finRange]

theorem nodup_removedSquares (old new : Board) :
    (removedSquares old new).Nodup := by
  rw [removedSquares_eq]
  exact (List.nodup_finRange 64).filter _

theorem addedPieces_eq (old new : Board) :
    addedPieces old new
      = (List.finRange 64).filterMap fun s =>
          if ((old s).isSome || (new s).isSome) = true then
            if old s ≠ new s then (new s).map (fun p => (s, p)) else none
          else none := by
  rw [addedPieces, diffSquares, filterMap_filter_comm]

theorem mem_addedPieces {old new : Board} {s : Square} {p : Piece} :
    (s, p) ∈ addedPieces old new ↔ old s ≠ new s ∧ new s = some p := by
  rw [addedPieces_eq, List.mem_filterMap]
  constructor
  · rintro ⟨a, -, hfa⟩
    by_cases hu : ((old a).isSome || (new a).isSome) = true
    · rw [if_pos hu] at hfa
      by_cases hne : old a = new a
      · simp [hne] at hfa
      · rw [if_pos hne] at hfa
        rcases hx : new a with - | q
        · rw [hx] at hfa; cases hfa
        · rw [hx] at hfa
          cases hfa
          exact ⟨hne, hx⟩
    · rw [if_neg hu] at hfa; cases hfa
  · rintro ⟨hne, hp⟩
    refine ⟨s, List.mem_finRange s, ?_⟩
    have hu : ((old s).isSome || (new s).isSome) = true := by
      simp [hp]
    rw [if_pos hu, if_pos hne, hp]
    rfl


/-- Claim C6 (diff of a snapshot with itself): `Pieces::set_board` applied
with a board equal to the stored one records zero move matches, marks
zero figurines fading and pushes zero new figurines — the figurine list
is exactly the pruned-and-frozen previous list. -/
theorem c6_diff_idempotent (A : Board) :
    boardDiff A A = ([], [], []) ∧
    ∀ (P : Pieces) (now : ℤ), P.board = A →
      (P.set_board A now).figurines = prepFigs P.figurines now := by
  have hrem : removedSquares A A = [] := by
    rw [removedSquares_eq]
    apply List.filter_eq_nil_iff.mpr
    intro s _
    simp
  have hadd : addedPieces A A = [] := by
    rw [addedPieces_eq]
    apply List.filterMap_eq_nil_iff.mpr
    intro s _
    simp
  have hd : boardDiff A A = ([], [], []) := by
    rw [boardDiff, hrem, hadd]
    rfl
  refine ⟨hd, ?_⟩
  intro P now hP
  rw [Pieces.set_board, hP, hd]
  simp [applyMoves, applyFades]

/-- Witness for C6 at a concrete input. -/
theorem c6_witness :
    ((Pieces.new_from_board (fun _ => none) 0).set_board (fun _ => none)
        0).figurines
      = prepFigs (Pieces.new_from_board (fun _ => none) 0).figurines 0 :=
  (c6_diff_idempotent (fun _ => none)).2 _ 0 rfl

/-- Claim C2: when exactly one piece relocates from `s1` to a square `s2`
that is empty in the old snapshot, the diff records exactly the move match
`(s1, s2)`, no pure removal and no pure addition, and `Pieces::set_board`
only relocates the matching figurine (no new figurine, no fade). -/
theorem c2_single_move_diff (A B : Board) (s1 s2 : Square) (p : Piece)
    (h1 : A s1 = some p) (h2 : A s2 = none) (hne : s1 ≠ s2)
    (hB1 : B s1 = none) (hB2 : B s2 = some p)
    (hrest : ∀ s, s ≠ s1 → s ≠ s2 → B s = A s) :
    boardDiff A B = ([(s1, s2)], [], []) ∧
    ∀ (P : Pieces) (now : ℤ), P.board = A →
      (P.set_board B now).figurines =
        moveFirst now s1 s2 (prepFigs P.figurines now) := by
  have hrem : removedSquares A B = [s1] := by
    rw [removedSquares_eq]
    apply filter_eq_singleton (List.nodup_finRange 64) (List.mem_finRange s1)
    intro x _
    constructor
    · intro hx
      rcases Bool.and_eq_true_iff.mp hx with ⟨hx1, hx2⟩
      by_contra hxs1
      by_cases hxs2 : x = s2
      · subst hxs2
        rw [h2] at hx2
        cases hx2
      · exact (of_decide_eq_true hx1) (hrest x hxs1 hxs2).symm
    · intro hx
      subst hx
      rw [h1, hB1]
      simp
  have hadd : addedPieces A B = [(s2, p)] := by
    rw [addedPieces_eq]
    apply filterMap_eq_singleton (List.nodup_finRange 64)
      (List.mem_finRange s2)
    · have hu : ((A s2).isSome || (B s2).isSome) = true := by simp [hB2]
      have hne2 : A s2 ≠ B s2 := by rw [h2, hB2]; intro hc; cases hc
      rw [if_pos hu, if_pos hne2, hB2]
      rfl
    · intro x _ hx2
      by_cases hxs1 : x = s1
      · subst hxs1
        have hu : ((A x).isSome || (B x).isSome) = true := by simp [h1]
        have hnex : A x ≠ B x := by rw [h1, hB1]; intro hc; cases hc
        rw [if_pos hu, if_pos hnex, hB1]
        rfl
      · have hx : B x = A x := hrest x hxs1 hx2
        by_cases hu : ((A x).isSome || (B x).isSome) = true
        · rw [if_pos hu, if_neg (fun hc => hc hx.symm)]
        · rw [if_neg hu]
  have hd : boardDiff A B = ([(s1, s2)], [], []) := by
    rw [boardDiff, hrem, hadd]
    simp [matchAdds, minByKey, h1, List.erase_cons_head]
  refine ⟨hd, ?_⟩
  intro P now hP
  rw [Pieces.set_board, hP, hd]
  simp [applyMoves, applyFades]

/-- Witness for C2 at a concrete input: a lone white knight moving from
a1 to b3. -/
theorem c2_witness :
    boardDiff
        (fun s => if s = (0 : Square) then some ⟨Color.white, Role.knight⟩
          else none)
        (fun s => if s = (17 : Square) then some ⟨Color.white, Role.knight⟩
          else none)
      = ([((0 : Square), (17 : Square))], [], []) :=
  (c2_single_move_diff _ _ 0 17 ⟨Color.white, Role.knight⟩
    (by decide) (by decide) (by decide) (by decide) (by decide)
    (by decide)).1

/-! ## drag_mouse_up helpers -/

theorem dragUpFigs_emit (square : Option Square) (now : ℤ) :
    ∀ figs : List Figurine,
      (dragUpFigs square now figs).2
        = (figs.find? fun f => f.dragging).bind fun f =>
            if f.square ≠ square.getD f.square ∧ ¬f.fading
            then some (f.square, square.getD f.square) else none := by
  intro figs
  induction figs with
  | nil => rfl
  | cons f rest ih =>
    by_cases hf : f.dragging
    · simp [dragUpFigs, hf, List.find?_cons, ih]
    · have hf' : f.dragging = false := Bool.eq_false_iff.mpr hf
      simp [dragUpFigs, hf', List.find?_cons, ih]

/-- Claim C4: a drag release whose computed destination is the dragged
figurine's own square emits nothing, and an off-board release (no square
under the pointer) falls back to that square, so it also emits nothing. -/
theorem c4_release_on_origin_no_emission (bs : BoardState) (now : ℤ) :
    (bs.drag_mouse_up none now).2 = none ∧
    ∀ f : Figurine, bs.pieces.dragging_fig = some f →
      (bs.drag_mouse_up (some f.square) now).2 = none := by
  constructor
  · rw [BoardState.drag_mouse_up]
    have h := dragUpFigs_emit none now bs.pieces.figurines
    rcases hf : bs.pieces.figurines.find? fun f => f.dragging with - | f
    · rw [hf] at h
      simp at h
      simp [h]
    · rw [hf] at h
      simp at h
      simp [h]
  · intro f hf
    rw [BoardState.drag_mouse_up]
    have h := dragUpFigs_emit (some f.square) now bs.pieces.figurines
    rw [Pieces.dragging_fig] at hf
    rw [hf] at h
    simp at h
    simp [h]

/-- Witness for C4: a concrete drag of a knight on d4, released on d4. -/
theorem c4_witness :
    ((⟨⟨fun _ => none,
        [{ square := (27 : Square), piece := ⟨Color.white, Role.knight⟩,
           pos := (0, 0), time := 0, fading := false, replaced := false,
           dragging := true }]⟩,
        Color.white, none, none, none, none, []⟩ :
          BoardState).drag_mouse_up (some (27 : Square)) 5).2 = none :=
  (c4_release_on_origin_no_emission _ 5).2
    { square := (27 : Square), piece := ⟨Color.white, Role.knight⟩,
      pos := (0, 0), time := 0, fading := false, replaced := false,
      dragging := true }
    (by with_unfolding_all decide)

theorem dragUpFigs_clears (square : Option Square) (now : ℤ) :
    ∀ figs : List Figurine,
      (figs.countP fun f => f.dragging) ≤ 1 →
      ((dragUpFigs square now figs).1.find? fun f => f.dragging) = none := by
  intro figs
  induction figs with
  | nil => intro; rfl
  | cons f rest ih =>
    intro hc
    by_cases hf : f.dragging
    · simp only [List.countP_cons, hf, if_true] at hc
      have hrest : (rest.countP fun f => f.dragging) = 0 := by omega
      have hnone : (rest.find? fun f => f.dragging) = none :=
        List.find?_eq_none.mpr fun x hx =>
          (List.countP_eq_zero.mp hrest) x hx
      simp [dragUpFigs, hf, List.find?_cons, hnone]
    · have hf' : f.dragging = false := Bool.eq_false_iff.mpr hf
      have hc' : (rest.countP fun f => f.dragging) ≤ 1 := by
        simp [List.countP_cons, hf'] at hc
        exact hc
      simp [dragUpFigs, hf', List.find?_cons, ih hc']

/-- Claim C9: if an intervening `set_board` marked the dragged piece
fading, the next pointer-up clears the drag anchor and the dragging flag
and emits no move proposal. -/
theorem c9_stale_drag_cleared (bs : BoardState) (square : Option Square)
    (now : ℤ) (f : Figurine)
    (hdrag : bs.pieces.dragging_fig = some f) (hfade : f.fading = true)
    (hone : (bs.pieces.figurines.countP fun f => f.dragging) ≤ 1) :
    (bs.drag_mouse_up square now).2 = none ∧
    (bs.drag_mouse_up square now).1.drag_start = none ∧
    (bs.drag_mouse_up square now).1.pieces.dragging_fig = none := by
  have hemit : (dragUpFigs square now bs.pieces.figurines).2 = none := by
    rw [dragUpFigs_emit]
    rw [Pieces.dragging_fig] at hdrag
    rw [hdrag]
    simp [hfade]
  refine ⟨?_, ?_, ?_⟩
  · rw [BoardState.drag_mouse_up, hemit]
  · rw [BoardState.drag_mouse_up, hemit]
  · rw [BoardState.drag_mouse_up, hemit]
    exact dragUpFigs_clears square now _ hone

/-- Witness for C9: a dragged rook on h1 that a position update already
marked fading; releasing on g5 emits nothing and clears the drag. -/
theorem c9_witness :
    (((⟨⟨fun _ => none,
        [{ square := (7 : Square), piece := ⟨Color.white, Role.rook⟩,
           pos := (0, 0), time := 0, fading := true, replaced := true,
           dragging := true }]⟩,
        Color.white, none, none, none,
        some ⟨(0, 0), (7 : Square)⟩, []⟩ :
          BoardState).drag_mouse_up (some (38 : Square)) 7).2 = none ∧
      True) :=
  ⟨(c9_stale_drag_cleared _ (some (38 : Square)) 7
      { square := (7 : Square), piece := ⟨Color.white, Role.rook⟩,
        pos := (0, 0), time := 0, fading := true, replaced := true,
        dragging := true }
      (by with_unfolding_all decide) rfl
      (by with_unfolding_all decide)).1,
    trivial⟩

/-- Counterexample to claim C1: with a white rook selected on a1 and an
empty `LegalMoveSet`, a left click on h5 still emits the proposal
(a1, h5), which corresponds to no entry of the set. -/
theorem c1_counterexample :
    ((⟨⟨fun s => if s = (0 : Square)
          then some ⟨Color.white, Role.rook⟩ else none,
        [{ square := (0 : Square), piece := ⟨Color.white, Role.rook⟩,
           pos := (0, 0), time := 0, fading := false, replaced := false,
           dragging := false }]⟩,
        Color.white, none, some (0 : Square), none, none, []⟩ :
          BoardState).selection_mouse_down (some (39 : Square)) 1).2
        = some ((0 : Square), (39 : Square)) ∧
      (⟨⟨fun s => if s = (0 : Square)
          then some ⟨Color.white, Role.rook⟩ else none,
        [{ square := (0 : Square), piece := ⟨Color.white, Role.rook⟩,
           pos := (0, 0), time := 0, fading := false, replaced := false,
           dragging := false }]⟩,
        Color.white, none, some (0 : Square), none, none, []⟩ :
          BoardState).legals = [] := by
  constructor
  · with_unfolding_all decide
  · rfl

/-- Claim C1 as amended: emissions are characterized with no reference at
all to the `LegalMoveSet`.  A two-click emission happens exactly when the
left button is down, a square was previously selected and a different
square is under the pointer; a drag-release emission happens exactly when
the first dragging figurine is not fading and the computed destination
(pointer square, falling back to its own square) differs from its
square.  Legality is only consulted later, by `Ground::update`, to decide
whether to open the promotion overlay. -/
theorem c1_emission_characterization (bs : BoardState)
    (square : Option Square) (button : ℕ) (now : ℤ) (o d : Square) :
    ((bs.selection_mouse_down square button).2 = some (o, d) ↔
      button = 1 ∧ bs.selected = some o ∧ square = some d ∧ o ≠ d) ∧
    ((bs.drag_mouse_up square now).2 = some (o, d) ↔
      ∃ f : Figurine, bs.pieces.dragging_fig = some f ∧ f.fading = false ∧
        f.square = o ∧ square.getD o = d ∧ o ≠ d) := by
  constructor
  · rw [BoardState.selection_mouse_down]
    by_cases hb : button = 1
    · rw [if_pos hb]
      rcases hsel : bs.selected with - | o' <;> rcases hsq : square with - | d'
      · simp [hb]
      · simp [hb]
      · simp [hb]
      · simp only [hb]
        by_cases hod : o' = d'
        · subst hod
          simp
          rintro rfl rfl
          rfl
        · simp [hod]
          rintro rfl rfl
          exact hod
    · rw [if_neg hb]
      constructor
      · intro hc
        cases hc
      · rintro ⟨h1, -⟩
        exact absurd h1 hb
  · have h := dragUpFigs_emit square now bs.pieces.figurines
    rw [Pieces.dragging_fig]
    rcases hf : bs.pieces.figurines.find? fun f => f.dragging with - | f
    · rw [hf] at h
      rw [Option.none_bind] at h
      rw [hf]
      simp only [BoardState.drag_mouse_up, h]
      simp
    · rw [hf] at h
      rw [Option.some_bind] at h
      rw [hf]
      by_cases hcond : f.square ≠ square.getD f.square ∧ ¬f.fading = true
      · rw [if_pos hcond] at h
        simp only [BoardState.drag_mouse_up, h]
        rw [if_pos hcond.1]
        constructor
        · intro hc
          cases hc
          exact ⟨f, rfl, Bool.eq_false_iff.mpr hcond.2, rfl, rfl, hcond.1⟩
        · rintro ⟨f', hff', -, ho, hd, -⟩
          cases hff'
          rw [ho, hd]
      · rw [if_neg hcond] at h
        simp only [BoardState.drag_mouse_up, h]
        constructor
        · intro hc
          cases hc
        · rintro ⟨f', hff', hfade, ho, hd, hne⟩
          cases hff'
          refine absurd ⟨?_, ?_⟩ hcond
          · rw [ho, hd]
            exact hne
          · rw [hfade]
            intro hc
            cases hc

/-- The concrete board-state of the C3 promotion scenario: a white pawn
dragged from e7 (square 52), with a legal-move set holding exactly the two
promotion moves e7→e8 (queen) and e7→e8 (knight). -/
def promoScenario : BoardState :=
  ⟨⟨fun s => if s = (52 : Square) then some ⟨Color.white, Role.pawn⟩
      else none,
    [{ square := (52 : Square), piece := ⟨Color.white, Role.pawn⟩,
       pos := (0, 0), time := 0, fading := false, replaced := false,
       dragging := true }]⟩,
    Color.white, none, some (52 : Square), none,
    some ⟨(0, 0), (52 : Square)⟩,
    [⟨some (52 : Square), (60 : Square), some Role.queen⟩,
     ⟨some (52 : Square), (60 : Square), some Role.knight⟩]⟩

/-- Claim C3: in the promotion scenario, releasing the drag on e8 emits
the role-less proposal (e7, e8); `Ground::update` on that proposal opens
the promotion overlay for (e7, e8) — entering the promotion-pending state
and changing nothing else, in particular committing no move — and picking
knight in the overlay then emits exactly (e7, e8, knight). -/
theorem c3_promotion_scenario :
    (promoScenario.drag_mouse_up (some (60 : Square)) 0).2
        = some ((52 : Square), (60 : Square)) ∧
      (∀ g : GroundState, g.board_state = promoScenario →
        Ground.update g (.UserMove 52 60 none) 0
          = { g with promotable := some ⟨52, 60, none⟩ }) ∧
      promotable_mouse_down (some ⟨52, 60, none⟩) (some Role.knight)
        = (none, some (52, 60, Role.knight)) := by
  refine ⟨by with_unfolding_all decide, ?_, rfl⟩
  intro g hg
  rw [Ground.update, if_pos]
  · rfl
  · rw [hg]
    with_unfolding_all decide

/-! ## Easing lemmas -/

theorem ease_factor_lt_one (t : ℚ) (h : t < 1) :
    (if 1 ≤ t then (1 : ℚ)
      else if 1/2 ≤ t then (t - 1) * (2 * t - 2) * (2 * t - 2) + 1
      else if 0 ≤ t then 4 * t * t * t
      else 0) < 1 := by
  rw [if_neg (not_le.mpr h)]
  by_cases h2 : 1/2 ≤ t
  · rw [if_pos h2]
    have ha : 2 * t - 2 < 0 := by linarith
    have hb : 0 < (2 * t - 2) * (2 * t - 2) := mul_pos_of_neg_of_neg ha ha
    have hc : (t - 1) * ((2 * t - 2) * (2 * t - 2)) < 0 :=
      mul_neg_of_neg_of_pos (by linarith) hb
    nlinarith [hc]
  · rw [if_neg h2]
    by_cases h3 : 0 ≤ t
    · rw [if_pos h3]
      nlinarith [mul_nonneg (mul_nonneg h3 h3) h3]
    · rw [if_neg h3]
      norm_num

theorem ease_reaches_iff (start stop elapsed : ℚ)
    (h : elapsed < ANIMATE_DURATION) :
    ease_in_out_cubic start stop elapsed ANIMATE_DURATION = stop ↔
      start = stop := by
  have ht : elapsed / ANIMATE_DURATION < 1 := by
    rw [ANIMATE_DURATION] at h ⊢
    rw [div_lt_one (by norm_num)]
    exact h
  have hlt := ease_factor_lt_one (elapsed / ANIMATE_DURATION) ht
  simp only [ease_in_out_cubic]
  constructor
  · intro heq
    have hz : (stop - start) *
        ((if 1 ≤ elapsed / ANIMATE_DURATION then (1 : ℚ)
          else if 1/2 ≤ elapsed / ANIMATE_DURATION then
            (elapsed / ANIMATE_DURATION - 1) *
              (2 * (elapsed / ANIMATE_DURATION) - 2) *
              (2 * (elapsed / ANIMATE_DURATION) - 2) + 1
          else if 0 ≤ elapsed / ANIMATE_DURATION then
            4 * (elapsed / ANIMATE_DURATION) * (elapsed / ANIMATE_DURATION) *
              (elapsed / ANIMATE_DURATION)
          else 0) - 1) = 0 := by
      linear_combination heq
    rcases mul_eq_zero.mp hz with h1 | h1
    · linarith
    · linarith
  · intro heq
    rw [heq]
    ring

/-- Counterexample to claim C5: at elapsed time exactly equal to the
animation duration (200 ms), `is_animating` still reports `true` although
the eased position has already reached the target square's center, so the
claimed "eased position has not yet reached the target" reading of the
third conjunct fails. -/
theorem c5_counterexample :
    ¬(({ square := (0 : Square), piece := ⟨Color.white, Role.knight⟩,
          pos := (0, 0), time := 0, fading := false, replaced := false,
          dragging := false } : Figurine).is_animating 200 = true ↔
        ({ square := (0 : Square), piece := ⟨Color.white, Role.knight⟩,
           pos := (0, 0), time := 0, fading := false, replaced := false,
           dragging := false } : Figurine).dragging = false ∧
        ({ square := (0 : Square), piece := ⟨Color.white, Role.knight⟩,
           pos := (0, 0), time := 0, fading := false, replaced := false,
           dragging := false } : Figurine).elapsed 200 ≤ ANIMATE_DURATION ∧
        (({ square := (0 : Square), piece := ⟨Color.white, Role.knight⟩,
            pos := (0, 0), time := 0, fading := false, replaced := false,
            dragging := false } : Figurine).fading = true ∨
          ({ square := (0 : Square), piece := ⟨Color.white, Role.knight⟩,
             pos := (0, 0), time := 0, fading := false, replaced := false,
             dragging := false } : Figurine).posAt 200
            ≠ square_to_inverted (0 : Square))) := by
  with_unfolding_all decide

/-- Claim C5 as amended: `is_animating` is true iff the piece is not
dragging, elapsed time is at most the duration, and the piece is fading or
its stored animation-start position differs from the target center (third
conjunct).  For elapsed time strictly inside the window this last
condition is equivalent to "the eased position has not yet reached the
target" (first conjunct), and past the window the function is false
regardless of distance (second conjunct); only at elapsed time exactly
equal to the duration do the stored-position and eased-position readings
differ. -/
theorem c5_is_animating_characterization (f : Figurine) (now : ℤ) :
    (f.elapsed now < ANIMATE_DURATION →
      (f.is_animating now = true ↔
        f.dragging = false ∧
          (f.fading = true ∨ f.posAt now ≠ square_to_inverted f.square))) ∧
    (ANIMATE_DURATION < f.elapsed now → f.is_animating now = false) ∧
    (f.is_animating now = true ↔
      f.dragging = false ∧ f.elapsed now ≤ ANIMATE_DURATION ∧
        (f.fading = true ∨ f.pos ≠ square_to_inverted f.square)) := by
  have hchar : f.is_animating now = true ↔
      f.dragging = false ∧ f.elapsed now ≤ ANIMATE_DURATION ∧
        (f.fading = true ∨ f.pos ≠ square_to_inverted f.square) := by
    rw [Figurine.is_animating]
    rcases f.dragging with - | -
      <;> rcases hfad : f.fading with - | -
      <;> by_cases hel : f.elapsed now ≤ ANIMATE_DURATION
      <;> simp [hfad, hel]
  refine ⟨?_, ?_, hchar⟩
  · intro h
    rw [hchar]
    rcases hdrag : f.dragging with - | -
    · rcases hfad : f.fading with - | -
      · have hpos : f.posAt now
            = (ease_in_out_cubic f.pos.1 (square_to_inverted f.square).1
                (f.elapsed now) ANIMATE_DURATION,
               ease_in_out_cubic f.pos.2 (square_to_inverted f.square).2
                (f.elapsed now) ANIMATE_DURATION) := by
          rw [Figurine.posAt, hdrag, hfad]
          simp
        have heq : f.posAt now = square_to_inverted f.square ↔
            f.pos = square_to_inverted f.square := by
          rw [hpos, Prod.ext_iff, Prod.ext_iff,
            ease_reaches_iff _ _ _ h, ease_reaches_iff _ _ _ h]
        simp only [hfad, le_of_lt h, true_and, and_true, false_or,
          Bool.false_eq_true, or_iff_right_iff_imp]
        exact (not_congr heq).symm
      · simp only [hfad, le_of_lt h]
        simp
    · simp [hdrag]
  · intro h
    rw [Figurine.is_animating]
    simp [not_le.mpr h]

/-- Witness for C5 at a concrete input: a knight half-way through its
slide (100 ms of 200 ms) is animating. -/
theorem c5_witness :
    ({ square := (0 : Square), piece := ⟨Color.white, Role.knight⟩,
        pos := (0, 0), time := 0, fading := false, replaced := false,
        dragging := false } : Figurine).is_animating 100 = true :=
  ((c5_is_animating_characterization _ 100).1
      (by with_unfolding_all decide)).mpr
    ⟨rfl, Or.inr (by with_unfolding_all decide)⟩

/-! ## Matching-loop lemmas -/

theorem minByKey_mem {key : Square → ℕ} :
    ∀ {l : List Square} {x : Square}, minByKey key l = some x → x ∈ l := by
  intro l
  induction l with
  | nil => intro x h; cases h
  | cons a as ih =>
    intro x h
    rw [minByKey] at h
    rcases hm : minByKey key as with - | y
    · rw [hm] at h
      cases h
      exact List.mem_cons_self _ _
    · rw [hm] at h
      have h' : (if key a ≤ key y then some a else some y) = some x := h
      by_cases hk : key a ≤ key y
      · rw [if_pos hk] at h'
        cases h'
        exact List.mem_cons_self _ _
      · rw [if_neg hk] at h'
        cases h'
        exact List.mem_cons_of_mem _ (ih hm)

theorem matchAdds_keeps (old : Board) (s : Square) :
    ∀ (adds : List (Square × Piece)) (removed : List Square),
      s ∈ removed → (∀ ap ∈ adds, old s ≠ some ap.2) →
      s ∈ (matchAdds old adds removed).2.1 := by
  intro adds
  induction adds with
  | nil =>
    intro removed hs _
    exact hs
  | cons ap rest ih =>
    intro removed hs hno
    rcases ap with ⟨sq, p⟩
    rw [matchAdds]
    rcases hm : minByKey (fun r => sqDistance r sq)
        (removed.filter fun r => decide (old r = some p)) with - | best
    · exact ih removed hs fun a ha => hno a (List.mem_cons_of_mem _ ha)
    · have hbest := minByKey_mem hm
      have hbp : old best = some p :=
        of_decide_eq_true (List.mem_filter.mp hbest).2
      have hsb : s ≠ best := by
        intro hc
        exact hno (sq, p) (List.mem_cons_self _ _) (hc ▸ hbp)
      exact ih (removed.erase best)
        ((List.mem_erase_of_ne hsb).mpr hs)
        fun a ha => hno a (List.mem_cons_of_mem _ ha)

/-! ## Figurine-tracking lemmas through the set_board stages -/

theorem not_fading_kept (f : Figurine) (now : ℤ) (hf : f.fading = false) :
    ((1 : ℚ)/10000 < f.alpha now) := by
  rcases hd : f.dragging with - | - <;>
    simp [Figurine.alpha, Figurine.drag_alpha, Figurine.alpha_easing, hf,
      hd] <;>
    norm_num

theorem mem_prepFigs (figs : List Figurine) (now : ℤ) (f : Figurine)
    (hmem : f ∈ figs) (hf : f.fading = false) :
    freezeFig now f ∈ prepFigs figs now := by
  rw [prepFigs]
  exact List.mem_map_of_mem _
    (List.mem_filter.mpr ⟨hmem, decide_eq_true (not_fading_kept f now hf)⟩)

theorem mem_fadeOne_of_fading (b : Board) (now : ℤ) (sq : Square)
    (figs : List Figurine) (g : Figurine) (hg : g ∈ figs)
    (hfad : g.fading = true) : g ∈ fadeOne b now sq figs := by
  rw [fadeOne]
  have : (if ¬g.fading ∧ g.square = sq
      then { g with fading := true, replaced := (b sq).isSome, time := now }
      else g) = g := by
    rw [if_neg]
    rintro ⟨hc, -⟩
    exact hc hfad
  rw [← this]
  exact List.mem_map_of_mem _ hg

theorem mem_applyFades_of_fading (b : Board) (now : ℤ)
    (removed : List Square) :
    ∀ (figs : List Figurine) (g : Figurine), g ∈ figs → g.fading = true →
      g ∈ applyFades b now removed figs := by
  induction removed with
  | nil => intro figs g hg _; exact hg
  | cons r rest ih =>
    intro figs g hg hfad
    rw [applyFades, List.foldl_cons]
    exact ih _ g (mem_fadeOne_of_fading b now r figs g hg hfad) hfad

theorem mem_moveFirst_of_fading (now : ℤ) (o d : Square) :
    ∀ (figs : List Figurine) (g : Figurine), g ∈ figs → g.fading = true →
      g ∈ moveFirst now o d figs := by
  intro figs
  induction figs with
  | nil => intro g hg; cases hg
  | cons f rest ih =>
    intro g hg hfad
    rw [moveFirst]
    by_cases hc : ¬f.fading ∧ f.square = o
    · rw [if_pos hc]
      rcases List.mem_cons.mp hg with rfl | hg'
      · exact absurd hfad (by simpa using hc.1)
      · exact List.mem_cons_of_mem _ hg'
    · rw [if_neg hc]
      rcases List.mem_cons.mp hg with rfl | hg'
      · exact List.mem_cons_self _ _
      · exact List.mem_cons_of_mem _ (ih g hg' hfad)

theorem mem_applyMoves_of_fading (now : ℤ) :
    ∀ (matched : List (Square × Square)) (figs : List Figurine)
      (g : Figurine), g ∈ figs → g.fading = true →
      g ∈ applyMoves now matched figs := by
  intro matched
  induction matched with
  | nil => intro figs g hg _; exact hg
  | cons od rest ih =>
    intro figs g hg hfad
    rw [applyMoves, List.foldl_cons]
    exact ih _ g (mem_moveFirst_of_fading now od.1 od.2 figs g hg hfad) hfad

theorem applyFades_marks (b : Board) (now : ℤ) (s : Square) :
    ∀ (removed : List Square) (figs : List Figurine), s ∈ removed →
      (∃ f ∈ figs, f.fading = false ∧ f.square = s) →
      ∃ g ∈ applyFades b now removed figs,
        g.square = s ∧ g.fading = true ∧ g.replaced = (b s).isSome := by
  intro removed
  induction removed with
  | nil => intro figs hs; cases hs
  | cons r rest ih =>
    intro figs hs hex
    rcases hex with ⟨f, hmem, hfad, hsq⟩
    rw [applyFades, List.foldl_cons]
    by_cases hrs : r = s
    · subst hrs
      have himg : (if ¬f.fading ∧ f.square = r
          then { f with fading := true, replaced := (b r).isSome, time := now }
          else f)
          = { f with fading := true, replaced := (b r).isSome, time := now } :=
        if_pos ⟨by simp [hfad], hsq⟩
      refine ⟨{ f with fading := true, replaced := (b r).isSome, time := now },
        ?_, hsq, rfl, rfl⟩
      apply mem_applyFades_of_fading b now rest _ _ _ rfl
      rw [fadeOne, ← himg]
      exact List.mem_map_of_mem _ hmem
    · have hs2 : s ∈ rest := by
        rcases List.mem_cons.mp hs with hc | hc
        · exact absurd hc.symm hrs
        · exact hc
      apply ih _ hs2
      have himg : (if ¬f.fading ∧ f.square = r
          then { f with fading := true, replaced := (b r).isSome, time := now }
          else f) = f := by
        rw [if_neg]
        rintro ⟨-, hc⟩
        exact hrs (hc ▸ hsq)
      refine ⟨f, ?_, hfad, hsq⟩
      rw [fadeOne, ← himg]
      exact List.mem_map_of_mem _ hmem

theorem freezeFig_fading (now : ℤ) (f : Figurine) :
    (freezeFig now f).fading = f.fading := by
  rw [freezeFig]
  split <;> rfl

theorem freezeFig_square (now : ℤ) (f : Figurine) :
    (freezeFig now f).square = f.square := by
  rw [freezeFig]
  split <;> rfl

/-- The old snapshot of the C7 counterexample: a white knight on a1. -/
def c7boardA : Board :=
  fun s => if s = (0 : Square) then some ⟨Color.white, Role.knight⟩ else none

/-- The new snapshot of the C7 counterexample: a white queen on a1, the
knight now on b2. -/
def c7boardB : Board :=
  fun s =>
    if s = (0 : Square) then some ⟨Color.white, Role.queen⟩
    else if s = (9 : Square) then some ⟨Color.white, Role.knight⟩ else none

/-- Counterexample to claim C7: a1 previously held a knight and now holds
a queen, and no vacated square held a queen (the claim's hypotheses all
hold), yet the diff does not fade the knight: the knight is matched as
the origin of the slide a1→b2, so no figurine on a1 is marked fading. -/
theorem c7_counterexample :
    (c7boardA (0 : Square) = some ⟨Color.white, Role.knight⟩ ∧
      c7boardB (0 : Square) = some ⟨Color.white, Role.queen⟩ ∧
      (⟨Color.white, Role.knight⟩ : Piece) ≠ ⟨Color.white, Role.queen⟩ ∧
      (∀ r : Square, c7boardA r ≠ c7boardB r →
        c7boardA r ≠ some ⟨Color.white, Role.queen⟩) ∧
      (∃ f ∈ (Pieces.new_from_board c7boardA 0).figurines,
        f.fading = false ∧ f.square = (0 : Square))) ∧
    ∀ g ∈ ((Pieces.new_from_board c7boardA 0).set_board c7boardB
        0).figurines, ¬(g.square = (0 : Square) ∧ g.fading = true) := by
  with_unfolding_all decide

/-- Claim C7 as amended: if square `s` previously held `p1` and now holds
a different piece `p2`, no vacated square lost a piece of kind `p2`, and
additionally (forced by the counterexample) no changed square gained a
piece of the captured kind `p1` — so the captured piece cannot itself be
matched away as a move origin — then `s` stays among the unmatched
removals and `Pieces::set_board` marks the figurine on `s` fading with
`replaced = true`. -/
theorem c7_capture_fade_replaced (A B : Board) (s : Square) (p1 p2 : Piece)
    (hA : A s = some p1) (hB : B s = some p2) (hne : p1 ≠ p2)
    (hvac : ∀ r : Square, A r ≠ B r → A r ≠ some p2)
    (hkind : ∀ t : Square, A t ≠ B t → B t ≠ some p1) :
    s ∈ (boardDiff A B).2.1 ∧
    ∀ (P : Pieces) (now : ℤ), P.board = A →
      (∃ f ∈ P.figurines, f.fading = false ∧ f.square = s) →
      ∃ g ∈ (P.set_board B now).figurines,
        g.square = s ∧ g.fading = true ∧ g.replaced = true := by
  have hchanged : A s ≠ B s := by
    rw [hA, hB]
    intro hc
    exact hne (Option.some.inj hc)
  have hsrem : s ∈ removedSquares A B :=
    mem_removedSquares.mpr ⟨hchanged, by rw [hA]; rfl⟩
  have hnocand : ∀ ap ∈ addedPieces A B, A s ≠ some ap.2 := by
    rintro ⟨t, q⟩ hap hc
    rcases mem_addedPieces.mp hap with ⟨htne, htq⟩
    rw [hA] at hc
    exact hkind t htne ((Option.some.inj hc) ▸ htq)
  have hkeep : s ∈ (boardDiff A B).2.1 := by
    rw [boardDiff]
    exact matchAdds_keeps A s _ _ hsrem hnocand
  refine ⟨hkeep, ?_⟩
  intro P now hP hex
  rcases hex with ⟨f, hmem, hfad, hsq⟩
  have hex' : ∃ f' ∈ prepFigs P.figurines now,
      f'.fading = false ∧ f'.square = s :=
    ⟨freezeFig now f, mem_prepFigs P.figurines now f hmem hfad,
      by rw [freezeFig_fading]; exact hfad,
      by rw [freezeFig_square]; exact hsq⟩
  have hmarks := applyFades_marks B now s (boardDiff P.board B).2.1
    (prepFigs P.figurines now) (by rw [hP]; exact hkeep) hex'
  rcases hmarks with ⟨g, hgmem, hgsq, hgfad, hgrep⟩
  refine ⟨g, ?_, hgsq, hgfad, ?_⟩
  · rw [Pieces.set_board]
    exact List.mem_append_left _
      (mem_applyMoves_of_fading now _ _ g hgmem hgfad)
  · rw [hgrep, hB]
    rfl

/-- Witness for C7 at a concrete input: a black queen captures the white
pawn on d5; the pawn's figurine fades with `replaced = true`. -/
theorem c7_witness :
    ∃ g ∈ ((Pieces.new_from_board
        (fun s => if s = (35 : Square)
          then some ⟨Color.white, Role.pawn⟩ else none) 0).set_board
        (fun s => if s = (35 : Square)
          then some ⟨Color.black, Role.queen⟩ else none) 0).figurines,
      g.square = (35 : Square) ∧ g.fading = true ∧ g.replaced = true :=
  (c7_capture_fade_replaced _ _ 35 ⟨Color.white, Role.pawn⟩
      ⟨Color.black, Role.queen⟩ (by decide) (by decide) (by decide)
      (by decide) (by decide)).2 _ 0 rfl
    (by with_unfolding_all decide)

/-! ## Fading-monotonicity lemmas -/

theorem forall2_fading_trans {l1 l2 l3 : List Figurine}
    (h12 : List.Forall₂ (fun f g => f.fading = true → g.fading = true) l1 l2)
    (h23 : List.Forall₂ (fun f g => f.fading = true → g.fading = true) l2 l3) :
    List.Forall₂ (fun f g => f.fading = true → g.fading = true) l1 l3 := by
  induction h12 generalizing l3 with
  | nil =>
    cases h23
    exact .nil
  | cons h t ih =>
    cases h23 with
    | cons h' t' => exact .cons (fun hf => h' (h hf)) (ih t')

theorem forall2_eqfading_trans {l1 l2 l3 : List Figurine}
    (h12 : List.Forall₂ (fun f g => g.fading = f.fading) l1 l2)
    (h23 : List.Forall₂ (fun f g => g.fading = f.fading) l2 l3) :
    List.Forall₂ (fun f g => g.fading = f.fading) l1 l3 := by
  induction h12 generalizing l3 with
  | nil =>
    cases h23
    exact .nil
  | cons h t ih =>
    cases h23 with
    | cons h' t' => exact .cons (h'.trans h) (ih t')

theorem fadeOne_mono (b : Board) (now : ℤ) (sq : Square) :
    ∀ l : List Figurine,
      List.Forall₂ (fun f g => f.fading = true → g.fading = true) l
        (fadeOne b now sq l) := by
  intro l
  induction l with
  | nil => exact .nil
  | cons f rest ih =>
    rw [fadeOne, List.map_cons]
    refine .cons ?_ ih
    by_cases hc : ¬f.fading ∧ f.square = sq
    · rw [if_pos hc]
      intro
      rfl
    · rw [if_neg hc]
      exact id

theorem applyFades_mono (b : Board) (now : ℤ) :
    ∀ (removed : List Square) (l : List Figurine),
      List.Forall₂ (fun f g => f.fading = true → g.fading = true) l
        (applyFades b now removed l) := by
  intro removed
  induction removed with
  | nil =>
    intro l
    exact List.forall₂_same.mpr fun x _ => id
  | cons r rest ih =>
    intro l
    rw [applyFades, List.foldl_cons]
    exact forall2_fading_trans (fadeOne_mono b now r l) (ih _)

theorem moveFirst_eqfading (now : ℤ) (o d : Square) :
    ∀ l : List Figurine,
      List.Forall₂ (fun f g => g.fading = f.fading) l
        (moveFirst now o d l) := by
  intro l
  induction l with
  | nil => exact .nil
  | cons f rest ih =>
    rw [moveFirst]
    by_cases hc : ¬f.fading ∧ f.square = o
    · rw [if_pos hc]
      exact .cons rfl (List.forall₂_same.mpr fun x _ => rfl)
    · rw [if_neg hc]
      exact .cons rfl ih

theorem applyMoves_mono (now : ℤ) :
    ∀ (matched : List (Square × Square)) (l : List Figurine),
      List.Forall₂ (fun f g => f.fading = true → g.fading = true) l
        (applyMoves now matched l) := by
  intro matched
  induction matched with
  | nil =>
    intro l
    exact List.forall₂_same.mpr fun x _ => id
  | cons od rest ih =>
    intro l
    rw [applyMoves, List.foldl_cons]
    refine forall2_fading_trans ?_ (ih _)
    exact List.Forall₂.imp (fun a b hr hf => hr.trans hf)
      (moveFirst_eqfading now od.1 od.2 l)

theorem dragUpFigs_eqfading (square : Option Square) (now : ℤ) :
    ∀ l : List Figurine,
      List.Forall₂ (fun f g => g.fading = f.fading) l
        (dragUpFigs square now l).1 := by
  intro l
  induction l with
  | nil => exact .nil
  | cons f rest ih =>
    rw [dragUpFigs]
    by_cases hf : f.dragging = true
    · rw [if_pos hf]
      exact .cons rfl (List.forall₂_same.mpr fun x _ => rfl)
    · rw [if_neg hf]
      exact .cons rfl ih

theorem startDragFirst_eqfading (sq : Square) :
    ∀ l : List Figurine,
      List.Forall₂ (fun f g => g.fading = f.fading) l
        (startDragFirst sq l) := by
  intro l
  induction l with
  | nil => exact .nil
  | cons f rest ih =>
    rw [startDragFirst]
    by_cases hc : ¬f.fading ∧ f.square = sq
    · rw [if_pos hc]
      exact .cons rfl (List.forall₂_same.mpr fun x _ => rfl)
    · rw [if_neg hc]
      exact .cons rfl ih

theorem dragMoveFigs_eqfading (pos : ℚ × ℚ) (now : ℤ) :
    ∀ l : List Figurine,
      List.Forall₂ (fun f g => g.fading = f.fading) l
        (dragMoveFigs pos now l).1 := by
  intro l
  induction l with
  | nil => exact .nil
  | cons f rest ih =>
    rw [dragMoveFigs]
    by_cases hf : f.dragging = true
    · rw [if_pos hf]
      exact .cons rfl (List.forall₂_same.mpr fun x _ => rfl)
    · rw [if_neg hf]
      exact .cons rfl ih

theorem drag_mouse_up_figurines (bs : BoardState) (square : Option Square)
    (now : ℤ) :
    (bs.drag_mouse_up square now).1.pieces.figurines
      = (dragUpFigs square now bs.pieces.figurines).1 := by
  simp only [BoardState.drag_mouse_up]
  rcases hm : (dragUpFigs square now bs.pieces.figurines).2 with - | ⟨o, d⟩
    <;> rfl

theorem drag_mouse_move_figurines (bs : BoardState) (pos : ℚ × ℚ)
    (now : ℤ) :
    List.Forall₂ (fun f g => g.fading = f.fading) bs.pieces.figurines
      (bs.drag_mouse_move pos now).pieces.figurines := by
  have h1 : List.Forall₂ (fun f g => g.fading = f.fading)
      bs.pieces.figurines
      (bs.apply_drag_threshold pos).pieces.figurines := by
    rw [BoardState.apply_drag_threshold]
    split
    · split
      · exact startDragFirst_eqfading _ _
      · exact List.forall₂_same.mpr fun x _ => rfl
    · exact List.forall₂_same.mpr fun x _ => rfl
  rw [BoardState.drag_mouse_move]
  split
  · exact forall2_eqfading_trans h1 (dragMoveFigs_eqfading pos now _)
  · exact h1

/-- Claim C8: fading is monotone.  `Pieces::set_board` maps the
pruned-and-frozen figurines one-to-one through the fade and move loops,
never clearing a fading flag, and only ever drops a figurine in the prune
step, which keeps exactly those with opacity above 0.0001; the drag
handlers never change any fading flag at all. -/
theorem c8_fading_monotone (P : Pieces) (b : Board) (now : ℤ)
    (bs : BoardState) (square : Option Square) (pos : ℚ × ℚ) :
    ((P.set_board b now).figurines
        = applyMoves now (boardDiff P.board b).1
            (applyFades b now (boardDiff P.board b).2.1
              (prepFigs P.figurines now)) ++
          (boardDiff P.board b).2.2.map
            (fun sp => newFigurine sp.1 sp.2 now)) ∧
    (prepFigs P.figurines now
        = (P.figurines.filter fun f =>
            decide ((1 : ℚ)/10000 < f.alpha now)).map (freezeFig now)) ∧
    List.Forall₂ (fun f g => f.fading = true → g.fading = true)
      (prepFigs P.figurines now)
      (applyMoves now (boardDiff P.board b).1
        (applyFades b now (boardDiff P.board b).2.1
          (prepFigs P.figurines now))) ∧
    List.Forall₂ (fun f g => g.fading = f.fading)
      bs.pieces.figurines (bs.drag_mouse_up square now).1.pieces.figurines ∧
    List.Forall₂ (fun f g => g.fading = f.fading)
      bs.pieces.figurines (bs.drag_mouse_move pos now).pieces.figurines := by
  refine ⟨rfl, rfl, ?_, ?_, drag_mouse_move_figurines bs pos now⟩
  · exact forall2_fading_trans
      (applyFades_mono b now (boardDiff P.board b).2.1 _)
      (applyMoves_mono now (boardDiff P.board b).1 _)
  · rw [drag_mouse_up_figurines]
    exact dragUpFigs_eqfading square now bs.pieces.figurines

/-! ## Counting lemmas for the occupancy invariant -/

theorem cnt_nil (s : Square) : cnt s [] = 0 := rfl

theorem cnt_cons (s : Square) (f : Figurine) (rest : List Figurine) :
    cnt s (f :: rest)
      = cnt s rest + (if f.fading = false ∧ f.square = s then 1 else 0) := by
  rw [cnt, cnt, List.countP_cons]
  congr 1
  rcases hfad : f.fading with - | - <;>
    by_cases hsq : f.square = s <;> simp [hfad, hsq]

theorem cnt_prepFigs (s : Square) (now : ℤ) :
    ∀ figs : List Figurine, cnt s (prepFigs figs now) = cnt s figs := by
  intro figs
  induction figs with
  | nil => rfl
  | cons f rest ih =>
    have hstep : prepFigs (f :: rest) now
        = if decide ((1 : ℚ)/10000 < f.alpha now) = true
          then freezeFig now f :: prepFigs rest now
          else prepFigs rest now := by
      rw [prepFigs, prepFigs, List.filter_cons]
      by_cases hk : decide ((1 : ℚ)/10000 < f.alpha now) = true
      · rw [if_pos hk, if_pos hk, List.map_cons]
      · rw [if_neg hk, if_neg hk]
    rw [hstep]
    by_cases hk : decide ((1 : ℚ)/10000 < f.alpha now) = true
    · rw [if_pos hk, cnt_cons, cnt_cons, ih, freezeFig_fading,
        freezeFig_square]
    · rw [if_neg hk, ih, cnt_cons]
      rcases hfad : f.fading with - | -
      · exact absurd (decide_eq_true (not_fading_kept f now hfad)) hk
      · simp [hfad]

theorem cnt_fadeOne (b : Board) (now : ℤ) (sq s : Square) :
    ∀ figs : List Figurine,
      cnt s (fadeOne b now sq figs) = if s = sq then 0 else cnt s figs := by
  intro figs
  induction figs with
  | nil =>
    rw [fadeOne, List.map_nil, cnt_nil]
    split <;> rfl
  | cons f rest ih =>
    have hstep : fadeOne b now sq (f :: rest)
        = (if ¬f.fading ∧ f.square = sq
            then { f with fading := true, replaced := (b sq).isSome, time := now }
            else f) :: fadeOne b now sq rest := by
      rw [fadeOne, fadeOne, List.map_cons]
    rw [hstep, cnt_cons, ih]
    by_cases hssq : s = sq
    · subst hssq
      rw [if_pos rfl, if_pos rfl]
      by_cases hc : ¬f.fading ∧ f.square = s
      · have hm : ¬(({ f with fading := true, replaced := (b s).isSome, time := now } : Figurine).fading = false ∧ ({ f with fading := true, replaced := (b s).isSome, time := now } : Figurine).square = s) := by
          rintro ⟨h1, -⟩
          cases h1
        rw [if_pos hc, if_neg hm]
      · have hm : ¬(f.fading = false ∧ f.square = s) := by
          rintro ⟨h1, h2⟩
          exact hc ⟨by simp [h1], h2⟩
        rw [if_neg hc, if_neg hm]
    · rw [if_neg hssq, if_neg hssq, cnt_cons]
      congr 1
      by_cases hc : ¬f.fading ∧ f.square = sq
      · have hm1 : ¬(({ f with fading := true, replaced := (b sq).isSome, time := now } : Figurine).fading = false ∧ ({ f with fading := true, replaced := (b sq).isSome, time := now } : Figurine).square = s) := by
          rintro ⟨h1, -⟩
          cases h1
        have hm2 : ¬(f.fading = false ∧ f.square = s) := by
          rintro ⟨-, h2⟩
          exact hssq (h2 ▸ hc.2)
        rw [if_pos hc, if_neg hm1, if_neg hm2]
      · rw [if_neg hc]

theorem cnt_applyFades (b : Board) (now : ℤ) (s : Square) :
    ∀ (removed : List Square) (figs : List Figurine),
      cnt s (applyFades b now removed figs)
        = if s ∈ removed then 0 else cnt s figs := by
  intro removed
  induction removed with
  | nil =>
    intro figs
    rw [if_neg (List.not_mem_nil s)]
    rfl
  | cons r rest ih =>
    intro figs
    rw [applyFades, List.foldl_cons]
    have := ih (fadeOne b now r figs)
    rw [applyFades] at this
    rw [this, cnt_fadeOne]
    by_cases hs : s ∈ rest
    · rw [if_pos hs, if_pos (List.mem_cons_of_mem _ hs)]
    · rw [if_neg hs]
      by_cases hsr : s = r
      · rw [if_pos hsr, if_pos (List.mem_cons.mpr (Or.inl hsr))]
      · rw [if_neg hsr, if_neg]
        intro hc
        rcases List.mem_cons.mp hc with hc | hc
        · exact hsr hc
        · exact hs hc

theorem cnt_moveFirst (now : ℤ) (o d : Square) (s : Square) :
    ∀ figs : List Figurine, 0 < cnt o figs →
      cnt s (moveFirst now o d figs) + (if s = o then 1 else 0)
        = cnt s figs + (if s = d then 1 else 0) := by
  intro figs
  induction figs with
  | nil =>
    intro h
    rw [cnt_nil] at h
    cases h
  | cons f rest ih =>
    intro h
    rw [moveFirst]
    by_cases hc : ¬f.fading ∧ f.square = o
    · rw [if_pos hc, cnt_cons, cnt_cons]
      have h1 : (if ({ f with square := d, time := now } : Figurine).fading
          = false ∧ ({ f with square := d, time := now } : Figurine).square
            = s then 1 else 0) = if s = d then 1 else 0 := by
        by_cases hsd : s = d
        · rw [if_pos hsd, if_pos ⟨by simp [Bool.eq_false_iff.mpr hc.1], hsd.symm⟩]
        · rw [if_neg hsd, if_neg]
          rintro ⟨-, h2⟩
          exact hsd h2.symm
      have h2 : (if f.fading = false ∧ f.square = s then 1 else 0)
          = if s = o then 1 else 0 := by
        by_cases hso : s = o
        · rw [if_pos hso,
            if_pos ⟨Bool.eq_false_iff.mpr hc.1, hso ▸ hc.2⟩]
        · rw [if_neg hso, if_neg]
          rintro ⟨-, h2⟩
          exact hso (h2 ▸ hc.2 : s = o)
      rw [h1, h2]
      omega
    · rw [if_neg hc, cnt_cons, cnt_cons]
      have hne : ¬(f.fading = false ∧ f.square = o) := by
        rintro ⟨h1, h2⟩
        exact hc ⟨by simp [h1], h2⟩
      have h0 : 0 < cnt o rest := by
        rw [cnt_cons, if_neg hne] at h
        omega
      have := ih h0
      omega

theorem count_cons_eq (x y : Square) (l : List Square) :
    (y :: l).count x = l.count x + if x = y then 1 else 0 := by
  rw [List.count_cons]
  congr 1
  by_cases h : x = y
  · simp [h]
  · have h2 : ¬y = x := fun hc => h hc.symm
    simp [h, h2]

theorem cnt_applyMoves (now : ℤ) (s : Square) :
    ∀ (matched : List (Square × Square)) (figs : List Figurine),
      (matched.map Prod.fst).Nodup →
      (∀ o ∈ matched.map Prod.fst, 0 < cnt o figs) →
      cnt s (applyMoves now matched figs)
          + (matched.map Prod.fst).count s
        = cnt s figs + (matched.map Prod.snd).count s := by
  intro matched
  induction matched with
  | nil =>
    intro figs _ _
    rfl
  | cons od rest ih =>
    intro figs hnd hpos
    rw [applyMoves, List.foldl_cons]
    have hme := cnt_moveFirst now od.1 od.2 s figs
      (hpos od.1 (by rw [List.map_cons]; exact List.mem_cons_self _ _))
    have hnd' : (rest.map Prod.fst).Nodup := by
      rw [List.map_cons] at hnd
      exact (List.nodup_cons.mp hnd).2
    have hpos' : ∀ o ∈ rest.map Prod.fst,
        0 < cnt o (moveFirst now od.1 od.2 figs) := by
      intro o ho
      have hoo : o ≠ od.1 := by
        intro hc
        rw [List.map_cons] at hnd
        exact (List.nodup_cons.mp hnd).1 (hc ▸ ho)
      have := cnt_moveFirst now od.1 od.2 o figs
        (hpos od.1 (by rw [List.map_cons]; exact List.mem_cons_self _ _))
      rw [if_neg hoo] at this
      have hp := hpos o (by rw [List.map_cons]; exact List.mem_cons_of_mem _ ho)
      omega
    have hih := ih (moveFirst now od.1 od.2 figs) hnd' hpos'
    rw [applyMoves] at hih
    rw [List.map_cons, List.map_cons, count_cons_eq, count_cons_eq]
    omega

theorem cnt_append (s : Square) (l1 l2 : List Figurine) :
    cnt s (l1 ++ l2) = cnt s l1 + cnt s l2 := by
  simp only [cnt, List.countP_append]

theorem cnt_new_list (s : Square) (now : ℤ) :
    ∀ adds : List (Square × Piece),
      cnt s (adds.map fun sp => newFigurine sp.1 sp.2 now)
        = (adds.map Prod.fst).count s := by
  intro adds
  induction adds with
  | nil => rfl
  | cons sp rest ih =>
    rw [List.map_cons, cnt_cons, ih, List.map_cons, count_cons_eq]
    congr 1
    by_cases hx : s = sp.1
    · rw [if_pos hx, if_pos]
      exact ⟨rfl, hx.symm⟩
    · rw [if_neg hx, if_neg]
      rintro ⟨-, h2⟩
      exact hx h2.symm

theorem cnt_append_new (s : Square) (now : ℤ)
    (adds : List (Square × Piece)) (figs : List Figurine) :
    cnt s (figs ++ adds.map fun sp => newFigurine sp.1 sp.2 now)
      = cnt s figs + (adds.map Prod.fst).count s := by
  rw [cnt_append, cnt_new_list]

theorem matchAdds_spec (old : Board) :
    ∀ (adds : List (Square × Piece)) (removed : List Square)
      (m : List (Square × Square)) (remF : List Square)
      (addF : List (Square × Piece)),
      removed.Nodup →
      matchAdds old adds removed = (m, remF, addF) →
      (m.map Prod.fst).Nodup ∧
      (∀ x ∈ remF, x ∈ removed) ∧
      (∀ x ∈ m.map Prod.fst, x ∈ removed) ∧
      (∀ x : Square, ¬(x ∈ remF ∧ x ∈ m.map Prod.fst)) ∧
      (∀ x ∈ removed, x ∈ remF ∨ x ∈ m.map Prod.fst) ∧
      (m.map Prod.snd ++ addF.map Prod.fst).Perm (adds.map Prod.fst) := by
  intro adds
  induction adds with
  | nil =>
    intro removed m remF addF hrem heq
    rw [matchAdds] at heq
    cases heq
    refine ⟨List.nodup_nil, fun x hx => hx, ?_, ?_, ?_, by simp⟩
    · intro x hx
      cases hx
    · rintro x ⟨-, hx⟩
      cases hx
    · intro x hx
      exact Or.inl hx
  | cons ap rest ih =>
    intro removed m remF addF hrem heq
    rcases ap with ⟨sq, p⟩
    simp only [matchAdds] at heq
    rcases hmb : minByKey (fun r => sqDistance r sq)
        (removed.filter fun r => decide (old r = some p)) with - | best
    · rw [hmb] at heq
      rcases hr : matchAdds old rest removed with ⟨m', remF', addF'⟩
      rw [hr] at heq
      cases heq
      rcases ih removed m' remF' addF' hrem hr with
        ⟨h1, h2, h3, h4, h5, h6⟩
      refine ⟨h1, h2, h3, h4, h5, ?_⟩
      rw [List.map_cons, List.map_cons]
      exact (List.perm_middle).trans (h6.cons sq)
    · rw [hmb] at heq
      have hbestmem : best ∈ removed :=
        (List.mem_filter.mp (minByKey_mem hmb)).1
      have heq2 : ((best, sq) :: (matchAdds old rest (removed.erase best)).1,
          (matchAdds old rest (removed.erase best)).2.1,
          (matchAdds old rest (removed.erase best)).2.2)
          = (m, remF, addF) := heq
      rcases hr : matchAdds old rest (removed.erase best) with
        ⟨m', remF', addF'⟩
      rw [hr] at heq2
      cases heq2
      rcases ih (removed.erase best) m' remF' addF' (hrem.erase best) hr with
        ⟨h1, h2, h3, h4, h5, h6⟩
      have hbm : best ∉ m'.map Prod.fst := by
        intro hc
        rcases ((hrem.mem_erase_iff).mp (h3 best hc)) with ⟨hne, -⟩
        exact hne rfl
      refine ⟨?_, ?_, ?_, ?_, ?_, ?_⟩
      · rw [List.map_cons]
        exact List.nodup_cons.mpr ⟨hbm, h1⟩
      · intro x hx
        exact List.mem_of_mem_erase (h2 x hx)
      · intro x hx
        rw [List.map_cons] at hx
        rcases List.mem_cons.mp hx with rfl | hx'
        · exact hbestmem
        · exact List.mem_of_mem_erase (h3 x hx')
      · rintro x ⟨hx1, hx2⟩
        rw [List.map_cons] at hx2
        rcases List.mem_cons.mp hx2 with rfl | hx2'
        · rcases (hrem.mem_erase_iff).mp (h2 x hx1) with ⟨hne, -⟩
          exact hne rfl
        · exact h4 x ⟨hx1, hx2'⟩
      · intro x hx
        by_cases hxb : x = best
        · subst hxb
          rw [List.map_cons]
          exact Or.inr (List.mem_cons_self _ _)
        · rcases h5 x ((List.mem_erase_of_ne hxb).mpr hx) with h | h
          · exact Or.inl h
          · rw [List.map_cons]
            exact Or.inr (List.mem_cons_of_mem _ h)
      · rw [List.map_cons, List.map_cons, List.cons_append]
        exact h6.cons sq

theorem map_fst_filterMap_sublist {α β : Type}
    (g : α → Option (α × β)) (hg : ∀ a y, g a = some y → y.1 = a) :
    ∀ l : List α, ((l.filterMap g).map Prod.fst).Sublist l := by
  intro l
  induction l with
  | nil => exact List.Sublist.refl []
  | cons x xs ih =>
    rw [List.filterMap_cons]
    rcases hgx : g x with - | y
    · exact ih.cons x
    · rw [List.map_cons, hg x y hgx]
      exact ih.cons₂ x

theorem addedPieces_fst_nodup (A B : Board) :
    ((addedPieces A B).map Prod.fst).Nodup := by
  have hsub := map_fst_filterMap_sublist
    (fun s => if A s ≠ B s then (B s).map (fun p => (s, p)) else none)
    (by
      intro a y hy
      have hy2 : (if A a ≠ B a then (B a).map (fun p => (a, p)) else none)
          = some y := hy
      by_cases hne : A a ≠ B a
      · rw [if_pos hne] at hy2
        rcases hB : B a with - | q
        · rw [hB] at hy2
          cases hy2
        · rw [hB] at hy2
          cases hy2
          rfl
      · rw [if_neg hne] at hy2
        cases hy2)
    (diffSquares A B)
  rw [← addedPieces] at hsub
  exact hsub.nodup ((List.nodup_finRange 64).filter _)

theorem mem_addedPieces_fst {A B : Board} {s : Square} :
    s ∈ (addedPieces A B).map Prod.fst ↔ A s ≠ B s ∧ (B s).isSome := by
  rw [List.mem_map]
  constructor
  · rintro ⟨⟨t, q⟩, htq, rfl⟩
    rcases mem_addedPieces.mp htq with ⟨hne, hq⟩
    exact ⟨hne, by rw [hq]; rfl⟩
  · rintro ⟨hne, hsome⟩
    rcases hB : B s with - | p
    · rw [hB] at hsome
      cases hsome
    · exact ⟨(s, p), mem_addedPieces.mpr ⟨hne, hB⟩, rfl⟩

theorem count_of_nodup (l : List Square) (hl : l.Nodup) (x : Square) :
    l.count x = if x ∈ l then 1 else 0 := by
  by_cases hx : x ∈ l
  · rw [if_pos hx]
    exact List.count_eq_one_of_mem hl hx
  · rw [if_neg hx]
    exact List.count_eq_zero_of_not_mem hx

theorem count_addedPieces_fst (A B : Board) (s : Square) :
    ((addedPieces A B).map Prod.fst).count s
      = if A s ≠ B s ∧ (B s).isSome then 1 else 0 := by
  rw [count_of_nodup _ (addedPieces_fst_nodup A B)]
  by_cases hx : A s ≠ B s ∧ (B s).isSome = true
  · rw [if_pos (mem_addedPieces_fst.mpr hx), if_pos hx]
  · rw [if_neg (fun hc => hx (mem_addedPieces_fst.mp hc)), if_neg hx]

/-- Preservation half of the C10 occupancy invariant: one `set_board`
call keeps the per-square non-fading figurine count equal to the new
board's occupancy. -/
theorem set_board_preserves_inv (P : Pieces) (b : Board) (now : ℤ)
    (hInv : PiecesInv P) : PiecesInv (P.set_board b now) := by
  intro s
  have hspec := matchAdds_spec P.board (addedPieces P.board b)
    (removedSquares P.board b) (boardDiff P.board b).1
    (boardDiff P.board b).2.1 (boardDiff P.board b).2.2
    (nodup_removedSquares _ _) rfl
  rcases hspec with ⟨hnd, hremsub, hmsub, hdisj, hcover, hperm⟩
  have hgoal : (P.set_board b now).figurines
      = applyMoves now (boardDiff P.board b).1
          (applyFades b now (boardDiff P.board b).2.1
            (prepFigs P.figurines now)) ++
        (boardDiff P.board b).2.2.map fun sp => newFigurine sp.1 sp.2 now :=
    rfl
  have hboard : (P.set_board b now).board = b := rfl
  rw [PiecesInv] at hInv
  show cnt s (P.set_board b now).figurines
    = occupancy (P.set_board b now).board s
  rw [hgoal, hboard, cnt_append_new]
  have hfades : ∀ x : Square,
      cnt x (applyFades b now (boardDiff P.board b).2.1
        (prepFigs P.figurines now))
      = if x ∈ (boardDiff P.board b).2.1 then 0
        else occupancy P.board x := by
    intro x
    rw [cnt_applyFades]
    by_cases hx : x ∈ (boardDiff P.board b).2.1
    · rw [if_pos hx, if_pos hx]
    · rw [if_neg hx, if_neg hx, cnt_prepFigs, hInv x]
  have hpos : ∀ o ∈ (boardDiff P.board b).1.map Prod.fst,
      0 < cnt o (applyFades b now (boardDiff P.board b).2.1
        (prepFigs P.figurines now)) := by
    intro o ho
    have hor : o ∈ removedSquares P.board b := hmsub o ho
    have honf : o ∉ (boardDiff P.board b).2.1 := fun hc => hdisj o ⟨hc, ho⟩
    rw [hfades o, if_neg honf, occupancy,
      if_pos (mem_removedSquares.mp hor).2]
    norm_num
  have hmoves := cnt_applyMoves now s (boardDiff P.board b).1
    (applyFades b now (boardDiff P.board b).2.1
      (prepFigs P.figurines now)) hnd hpos
  have hpcount : ((boardDiff P.board b).1.map Prod.snd).count s
        + ((boardDiff P.board b).2.2.map Prod.fst).count s
      = ((addedPieces P.board b).map Prod.fst).count s := by
    have := hperm.count_eq s
    rw [List.count_append] at this
    exact this
  have hacount := count_addedPieces_fst P.board b s
  have hmcount := count_of_nodup _ hnd s
  have hfs := hfades s
  by_cases hAB : P.board s = b s
  · have h1 : s ∉ removedSquares P.board b := by
      rw [mem_removedSquares]
      rintro ⟨hc, -⟩
      exact hc hAB
    have h2 : s ∉ (boardDiff P.board b).2.1 :=
      fun hc => h1 (hremsub s hc)
    have h3 : s ∉ (boardDiff P.board b).1.map Prod.fst :=
      fun hc => h1 (hmsub s hc)
    rw [if_neg h2] at hfs
    rw [if_neg h3] at hmcount
    rw [if_neg (by rintro ⟨hc1, -⟩; exact hc1 hAB)] at hacount
    have hov : occupancy P.board s = occupancy b s := by
      rw [occupancy, occupancy, hAB]
    omega
  · have hocc : ((addedPieces P.board b).map Prod.fst).count s
        = occupancy b s := by
      rw [hacount, occupancy]
      by_cases hb : (b s).isSome
      · rw [if_pos ⟨hAB, hb⟩, if_pos hb]
      · rw [if_neg (by rintro ⟨-, hc⟩; exact hb hc), if_neg hb]
    by_cases hA : (P.board s).isSome
    · have hsr : s ∈ removedSquares P.board b :=
        mem_removedSquares.mpr ⟨hAB, hA⟩
      have hAocc : occupancy P.board s = 1 := by
        rw [occupancy, if_pos hA]
      rcases hcover s hsr with hin | hin
      · have h3 : s ∉ (boardDiff P.board b).1.map Prod.fst :=
          fun hc => hdisj s ⟨hin, hc⟩
        rw [if_pos hin] at hfs
        rw [if_neg h3] at hmcount
        omega
      · have h2 : s ∉ (boardDiff P.board b).2.1 :=
          fun hc => hdisj s ⟨hc, hin⟩
        rw [if_neg h2] at hfs
        rw [if_pos hin] at hmcount
        omega
    · have h1 : s ∉ removedSquares P.board b := by
        rw [mem_removedSquares]
        rintro ⟨-, hc⟩
        exact hA hc
      have h2 : s ∉ (boardDiff P.board b).2.1 :=
        fun hc => h1 (hremsub s hc)
      have h3 : s ∉ (boardDiff P.board b).1.map Prod.fst :=
        fun hc => h1 (hmsub s hc)
      have hAocc : occupancy P.board s = 0 := by
        rw [occupancy, if_neg hA]
      rw [if_neg h2] at hfs
      rw [if_neg h3] at hmcount
      omega

theorem cnt_new_from_board (b : Board) (now : ℤ) (s : Square) :
    cnt s (Pieces.new_from_board b now).figurines = occupancy b s := by
  have key : ∀ l : List Square, l.Nodup →
      cnt s (l.filterMap fun sq => (b sq).map fun p => newFigurine sq p now)
        = if s ∈ l ∧ (b s).isSome then 1 else 0 := by
    intro l
    induction l with
    | nil =>
      intro
      rw [List.filterMap_nil, cnt_nil, if_neg]
      rintro ⟨h, -⟩
      cases h
    | cons x xs ih =>
      intro hnd
      rcases List.nodup_cons.mp hnd with ⟨hx, hxs⟩
      rcases hbx : b x with - | p
      · have hstep :
            ((x :: xs).filterMap fun sq =>
              (b sq).map fun p => newFigurine sq p now)
            = xs.filterMap fun sq =>
              (b sq).map fun p => newFigurine sq p now := by
          rw [List.filterMap_cons, hbx]
          rfl
        rw [hstep, ih hxs]
        by_cases hs : s ∈ xs ∧ (b s).isSome = true
        · rw [if_pos hs, if_pos ⟨List.mem_cons_of_mem _ hs.1, hs.2⟩]
        · rw [if_neg hs, if_neg]
          rintro ⟨hm, hsome⟩
          rcases List.mem_cons.mp hm with rfl | hm'
          · rw [hbx] at hsome
            cases hsome
          · exact hs ⟨hm', hsome⟩
      · have hstep :
            ((x :: xs).filterMap fun sq =>
              (b sq).map fun p => newFigurine sq p now)
            = newFigurine x p now ::
              (xs.filterMap fun sq =>
                (b sq).map fun p => newFigurine sq p now) := by
          rw [List.filterMap_cons, hbx]
          rfl
        rw [hstep, cnt_cons, ih hxs]
        by_cases hsx : s = x
        · subst hsx
          have hxs0 : ¬(s ∈ xs ∧ (b s).isSome = true) := by
            rintro ⟨hm, -⟩
            exact hx hm
          rw [if_neg hxs0,
            if_pos (⟨rfl, rfl⟩ :
              (newFigurine s p now).fading = false ∧
                (newFigurine s p now).square = s),
            if_pos ⟨List.mem_cons_self _ _, by rw [hbx]; rfl⟩]
        · have hnf : ¬((newFigurine x p now).fading = false ∧
              (newFigurine x p now).square = s) := by
            rintro ⟨-, h2⟩
            exact hsx h2.symm
          rw [if_neg hnf]
          by_cases hs : s ∈ xs ∧ (b s).isSome = true
          · rw [if_pos hs, if_pos ⟨List.mem_cons_of_mem _ hs.1, hs.2⟩]
          · rw [if_neg hs, if_neg]
            rintro ⟨hm, hsome⟩
            rcases List.mem_cons.mp hm with rfl | hm'
            · exact hsx rfl
            · exact hs ⟨hm', hsome⟩
  rw [Pieces.new_from_board]
  rw [key (List.finRange 64) (List.nodup_finRange 64), occupancy]
  by_cases hb : (b s).isSome
  · rw [if_pos ⟨List.mem_finRange s, hb⟩, if_pos hb]
  · rw [if_neg (by rintro ⟨-, hc⟩; exact hb hc), if_neg hb]

theorem new_from_board_inv (b : Board) (now : ℤ) :
    PiecesInv (Pieces.new_from_board b now) :=
  fun s => cnt_new_from_board b now s

/-- The old snapshot of the C10 counterexample: white knight a1, white
rook b1. -/
def c10boardA : Board :=
  fun s =>
    if s = (0 : Square) then some ⟨Color.white, Role.knight⟩
    else if s = (1 : Square) then some ⟨Color.white, Role.rook⟩ else none

/-- The new snapshot of the C10 counterexample: the knight moved to b1,
the rook to c1. -/
def c10boardB : Board :=
  fun s =>
    if s = (1 : Square) then some ⟨Color.white, Role.knight⟩
    else if s = (2 : Square) then some ⟨Color.white, Role.rook⟩ else none

/-- Counterexample to claim C10's piece-kind clause: after diffing the
chain move (knight a1→b1, rook b1→c1), the matcher processes the b1
addition first and relocates the knight's figurine onto b1, and the later
b1→c1 match then picks up that just-arrived figurine instead of the rook,
so the rook's figurine remains on b1 although the board now has a knight
there. -/
theorem c10_counterexample :
    (((Pieces.new_from_board c10boardA 0).set_board c10boardB
          0).figurine_at (1 : Square)).map Figurine.piece
        = some ⟨Color.white, Role.rook⟩ ∧
      c10boardB (1 : Square) = some ⟨Color.white, Role.knight⟩ := by
  constructor
  · with_unfolding_all decide
  · rfl

/-- Claim C10 as amended: the occupancy half of the correspondence is an
invariant — after any sequence of `set_board` calls starting from
`new_from_board`, every square holds exactly one non-fading figurine iff
the stored board occupies it (the piece-kind half fails, see the
counterexample: a chained move match can relocate the wrong same-square
figurine, leaving a figurine whose piece differs from the board's piece
on its square). -/
theorem c10_occupancy_invariant (b0 : Board) (t0 : ℤ)
    (steps : List (Board × ℤ)) :
    PiecesInv (steps.foldl (fun P bt => P.set_board bt.1 bt.2)
      (Pieces.new_from_board b0 t0)) := by
  suffices h : ∀ P : Pieces, PiecesInv P →
      PiecesInv (steps.foldl (fun P bt => P.set_board bt.1 bt.2) P) from
    h _ (new_from_board_inv b0 t0)
  induction steps with
  | nil =>
    intro P hP
    exact hP
  | cons bt rest ih =>
    intro P hP
    rw [List.foldl_cons]
    exact ih _ (set_board_preserves_inv P bt.1 bt.2 hP)

/-- Witness for C1's characterization at a concrete input: with a rook
selected on a1 and empty legals, clicking h5 emits (a1, h5). -/
theorem c1_witness :
    ((⟨⟨fun s => if s = (0 : Square)
          then some ⟨Color.white, Role.rook⟩ else none,
        [{ square := (0 : Square), piece := ⟨Color.white, Role.rook⟩,
           pos := (0, 0), time := 0, fading := false, replaced := false,
           dragging := false }]⟩,
        Color.white, none, some (0 : Square), none, none, []⟩ :
          BoardState).selection_mouse_down (some (39 : Square)) 1).2
      = some ((0 : Square), (39 : Square)) :=
  (c1_emission_characterization _ (some (39 : Square)) 1 0 0 39).1.mpr
    ⟨rfl, rfl, rfl, by decide⟩

/-- Witness for C3: the promotion overlay opens on the concrete ground
state of the scenario. -/
theorem c3_witness :
    Ground.update ⟨promoScenario, none⟩ (.UserMove 52 60 none) 0
      = { (⟨promoScenario, none⟩ : GroundState) with
          promotable := some ⟨52, 60, none⟩ } :=
  c3_promotion_scenario.2.1 ⟨promoScenario, none⟩ rfl

/-- Witness for C8 at a concrete input: a pointer-up on an empty board
preserves every fading flag. -/
theorem c8_witness :
    List.Forall₂ (fun f g => g.fading = f.fading)
      (⟨⟨fun _ => none, []⟩, Color.white, none, none, none, none, []⟩ :
        BoardState).pieces.figurines
      ((⟨⟨fun _ => none, []⟩, Color.white, none, none, none, none, []⟩ :
        BoardState).drag_mouse_up none 0).1.pieces.figurines :=
  (c8_fading_monotone ⟨fun _ => none, []⟩ (fun _ => none) 0 _ none
    (0, 0)).2.2.2.1

/-- Witness for C10's amended invariant at a concrete input. -/
theorem c10_witness :
    cnt (0 : Square)
        (([] : List (Board × ℤ)).foldl (fun P bt => P.set_board bt.1 bt.2)
          (Pieces.new_from_board (fun _ => none) 0)).figurines
      = occupancy
          (([] : List (Board × ℤ)).foldl (fun P bt => P.set_board bt.1 bt.2)
            (Pieces.new_from_board (fun _ => none) 0)).board (0 : Square) :=
  c10_occupancy_invariant (fun _ => none) 0 [] 0
